import Mathlib

/-!
Verification of the structural graph-alignment search engine of arguequery
(src/arguequery/services/retrieval.py) against its natural-language
specification.  The retrieval module is embedded shallowly: graphs are lists
of typed nodes and edges, the similarity oracle is a function parameter with
values in ℚ, and fallible code paths (Python exceptions, nontermination of
the while loop) are modelled with Option and explicit fuel.  The helper
classes Mapping, SearchNode and Result live in arguequery/models, which is
not among the sources; they are modelled from the specification, as marked
on each of their definitions.
-/

namespace Arguequery

/-- Kinds of argument-graph nodes: atom (carrying text) or scheme (carrying a
connective type). -/
inductive NodeKind where
  | atom
  | scheme
deriving DecidableEq, Repr

/-- A graph node with a stable identifier and a kind. -/
structure Node where
  id : Nat
  kind : NodeKind
deriving DecidableEq, Repr

/-- A directed edge referencing its source and target nodes by identifier. -/
structure Edge where
  id : Nat
  source : Nat
  target : Nat
deriving DecidableEq, Repr

/-- A graph element: a node or an edge. -/
inductive Elem where
  | node (n : Node)
  | edge (e : Edge)
deriving DecidableEq, Repr

/-- An argument graph: a collection of nodes and a collection of edges. -/
structure Graph where
  nodes : List Node
  edges : List Edge
deriving DecidableEq, Repr

/-- Atom nodes of a graph (arguebuf Graph.atom_nodes). -/
def Graph.atomNodes (gr : Graph) : List Node :=
  gr.nodes.filter (fun n => decide (n.kind = NodeKind.atom))

/-- Scheme nodes of a graph (arguebuf Graph.scheme_nodes). -/
def Graph.schemeNodes (gr : Graph) : List Node :=
  gr.nodes.filter (fun n => decide (n.kind = NodeKind.scheme))

/-- Modelled from the spec: the module arguequery/models/mapping.py (class
Mapping) is not among the sources.  A Mapping is a pair of lookup tables
between query and case elements, restricted to kind-consistent pairs with
every key and every value appearing at most once, carrying a running total
similarity.  Because the terminal state's mapping similarity is returned
directly as the alignment score, and is added to the heuristic h2 which is
normalized by the query element count, the running total is kept normalized
by that count, stored here in the field total. -/
structure Mapping where
  total : Nat
  nodePairs : List (Node × Node)
  edgePairs : List (Edge × Edge)
  similarity : ℚ
deriving DecidableEq, Repr

/-- Modelled from the spec: an empty mapping for a query with the given
element count. -/
def Mapping.empty (total : Nat) : Mapping :=
  ⟨total, [], [], 0⟩

/-- Look up the case node identifier a query node identifier is mapped to. -/
def Mapping.lookupNode (m : Mapping) (qid : Nat) : Option Nat :=
  (m.nodePairs.find? (fun p => decide (p.1.id = qid))).map (fun p => p.2.id)

/-- Modelled from the spec: Mapping.is_legal_mapping is true iff the kinds
match (atom to atom, scheme to scheme, edge to edge), neither element is
already used by the mapping, and an edge pair additionally requires both of
the query edge's endpoints to be mapped consistently with the candidate
edge's endpoints. -/
def Mapping.is_legal_mapping (m : Mapping) (qobj cobj : Elem) : Bool :=
  match qobj, cobj with
  | Elem.node qn, Elem.node cn =>
      decide (qn.kind = cn.kind) &&
      m.nodePairs.all (fun p => decide (p.1.id ≠ qn.id) && decide (p.2.id ≠ cn.id))
  | Elem.edge qe, Elem.edge ce =>
      m.edgePairs.all (fun p => decide (p.1.id ≠ qe.id) && decide (p.2.id ≠ ce.id)) &&
      decide (m.lookupNode qe.source = some ce.source) &&
      decide (m.lookupNode qe.target = some ce.target)
  | _, _ => false

/-- Modelled from the spec: Mapping.map registers the pair and adds the
oracle similarity for it, normalized by the query element count, to the
running total; it is a no-op when the pair is illegal. -/
def Mapping.map (sim : Elem → Elem → ℚ) (m : Mapping) (qobj cobj : Elem) : Mapping :=
  if m.is_legal_mapping qobj cobj then
    match qobj, cobj with
    | Elem.node qn, Elem.node cn =>
        { m with
          nodePairs := (qn, cn) :: m.nodePairs
          similarity := m.similarity + sim qobj cobj / (m.total : ℚ) }
    | Elem.edge qe, Elem.edge ce =>
        { m with
          edgePairs := (qe, ce) :: m.edgePairs
          similarity := m.similarity + sim qobj cobj / (m.total : ℚ) }
    | _, _ => m
  else m

/-- Modelled from the spec: the class SearchNode of arguequery/models/mapping.py
is not among the sources.  A search state holds the remaining unmapped query
nodes, the remaining unmapped query edges, the Mapping accumulated so far and
a cached priority f; the constructor copies the sets and the mapping it is
given, so a child shares no mutable state with its parent. -/
structure SearchNode where
  nodes : List Node
  edges : List Edge
  mapping : Mapping
  f : ℚ
deriving DecidableEq, Repr

/-- Modelled from the spec: SearchNode.remove removes one element from
whichever remaining set contains it. -/
def SearchNode.remove (s : SearchNode) (x : Elem) : SearchNode :=
  match x with
  | Elem.node n => { s with nodes := s.nodes.erase n }
  | Elem.edge e => { s with edges := s.edges.erase e }

/-- Root state s0 of a search (retrieval.py lines 51 to 56): all query nodes
and edges unmapped, an empty mapping that records the query element count.
The initial cached priority is irrelevant: s0 is alone in the frontier until
its first mapping expansion, which removes it. -/
def initialState (qg : Graph) : SearchNode :=
  ⟨qg.nodes, qg.edges, Mapping.empty (qg.nodes.length + qg.edges.length), 0⟩

/-- Maximum of a list of rationals; none on the empty list, mirroring the
ValueError that Python max() raises on an empty sequence. -/
def listMax : List ℚ → Option ℚ
  | [] => none
  | x :: xs =>
    match listMax xs with
    | none => some x
    | some m => some (max x m)

/-- Sequential fallible map over a list: none as soon as one call fails,
mirroring a Python loop in which an exception aborts the whole computation. -/
def optMap {α β : Type} (f : α → Option β) : List α → Option (List β)
  | [] => some []
  | x :: xs =>
    match f x, optMap f xs with
    | some y, some ys => some (y :: ys)
    | _, _ => none

/-- Same-kind node candidates in the case graph for a query node
(retrieval.py lines 120 to 124). -/
def nodeCandidates (cg : Graph) (n : Node) : List Node :=
  if n.kind = NodeKind.atom then cg.atomNodes else cg.schemeNodes

/-- Oracle similarities between a query node and its same-kind candidates. -/
def nodeSims (sim : Elem → Elem → ℚ) (cg : Graph) (x : Node) : List ℚ :=
  (nodeCandidates cg x).map (fun y => sim (Elem.node x) (Elem.node y))

/-- Oracle similarities between a query edge and all case edges. -/
def edgeSims (sim : Elem → Elem → ℚ) (cg : Graph) (x : Edge) : List ℚ :=
  cg.edges.map (fun y => sim (Elem.edge x) (Elem.edge y))

/-- Heuristic h2 (retrieval.py lines 144 to 164): sum, over the remaining
unmapped query elements, of the maximum similarity against the same-kind case
candidates, divided by the query graph's element count; none models the
ValueError that Python max() raises when a candidate collection is empty. -/
def h2 (sim : Elem → Elem → ℚ) (s : SearchNode) (qg cg : Graph) : Option ℚ :=
  match optMap (fun x => listMax (nodeSims sim cg x)) s.nodes,
        optMap (fun x => listMax (edgeSims sim cg x)) s.edges with
  | some ns, some es =>
      some ((ns.sum + es.sum) / ((qg.nodes.length + qg.edges.length : Nat) : ℚ))
  | _, _ => none

/-- Cost of all previous steps (retrieval.py lines 167 to 170). -/
def g (s : SearchNode) (qg : Graph) : ℚ :=
  s.mapping.similarity

/-- bisect.insort on the f-ordered frontier: insert the new state after every
state whose f is less than or equal to its own, matching insort_right under
the f-ascending state order of the spec (ties broken by insertion order). -/
def insort (x : SearchNode) : List SearchNode → List SearchNode
  | [] => [x]
  | y :: ys => if x.f < y.f then x :: y :: ys else y :: insort x ys

/-- Child construction in the mapping branch of the expansion (retrieval.py
lines 84 to 93): copy the state with the pair added to the mapping, remove
the picked element from the remaining sets, then set f to g plus h2; none
models the exception h2 raises when a remaining element has no same-kind
candidate. -/
def mkChild (sim : Elem → Elem → ℚ) (qg cg : Graph) (s : SearchNode)
    (qobj cobj : Elem) : Option SearchNode :=
  let s1 : SearchNode := ⟨s.nodes, s.edges, s.mapping.map sim qobj cobj, 0⟩
  let s2 := s1.remove qobj
  match h2 sim s2 qg cg with
  | none => none
  | some hv => some { s2 with f := g s2 qg + hv }

/-- Frontier truncation (retrieval.py lines 102 to 106): the Python slice
q[len(q) - limit:] for a positive limit, with Python's negative-start
semantics transliterated: a negative slice start is increased by the list
length (it wraps), and only the result of that addition is clamped at zero.
Hence for limit / 2 < len(q) < limit the slice keeps only limit - len(q)
states, although the frontier already fits within the bound.  A zero or
negative limit leaves the frontier unbounded. -/
def truncate (limit : Int) (q : List SearchNode) : List SearchNode :=
  if 0 < limit then
    if 0 ≤ (q.length : Int) - limit then q.drop ((q.length : Int) - limit).toNat
    else q.drop (((q.length : Int) - limit) + q.length).toNat
  else q

/-- Element picking (retrieval.py lines 109 to 129): a remaining query node
when any remain, a remaining query edge otherwise, paired with all same-kind
elements of the case graph; the free choice made by random.choice is modelled
by an input index taken modulo the set size. -/
def select1 (pick : Nat) (s : SearchNode) (qg cg : Graph) :
    Option (Elem × List Elem) :=
  if hn : s.nodes ≠ [] then
    let qobj := s.nodes.get ⟨pick % s.nodes.length, Nat.mod_lt _ (List.length_pos.mpr hn)⟩
    some (Elem.node qobj, (nodeCandidates cg qobj).map Elem.node)
  else if he : s.edges ≠ [] then
    let qobj := s.edges.get ⟨pick % s.edges.length, Nat.mod_lt _ (List.length_pos.mpr he)⟩
    some (Elem.edge qobj, cg.edges.map Elem.edge)
  else none

/-- Expansion before the final truncation (retrieval.py lines 77 to 100).
The source removes the expanded state s from the frontier by object identity
after inserting its children; since insort_right places each child relative
to every other state independently of s, that equals inserting the children
into the frontier without its last element, which is how it is modelled here.
When the candidate collection is empty, the branch guard of the source
(if query_obj and iterator) is false, so the frontier is returned with the
picked element neither mapped nor abandoned.  none models an uncaught h2
exception, or indexing an empty frontier. -/
def expandCore (sim : Elem → Elem → ℚ) (qg cg : Graph) (pick : Nat)
    (q : List SearchNode) : Option (List SearchNode) :=
  match q.getLast? with
  | none => none
  | some s =>
    match select1 pick s qg cg with
    | none => some q
    | some (qobj, cands) =>
      if cands.isEmpty then some q
      else
        if (cands.filter (fun c => s.mapping.is_legal_mapping qobj c)).isEmpty then
          some (q.dropLast ++ [s.remove qobj])
        else
          match optMap (mkChild sim qg cg s qobj)
              (cands.filter (fun c => s.mapping.is_legal_mapping qobj c)) with
          | none => none
          | some children =>
            some (children.foldl (fun acc c => insort c acc) q.dropLast)

/-- One expansion step including the frontier truncation (retrieval.py
lines 72 to 106). -/
def expand (sim : Elem → Elem → ℚ) (limit : Int) (qg cg : Graph) (pick : Nat)
    (q : List SearchNode) : Option (List SearchNode) :=
  (expandCore sim qg cg pick q).map (truncate limit)

/-- Outcome of the bounded search loop. -/
inductive SearchResult where
  | found (s : SearchNode)
  | outOfFuel (q : List SearchNode)
  | frontierEmpty
  | err
deriving DecidableEq, Repr

/-- Search loop of a_star_search (retrieval.py lines 58 to 63): expand the
tail state of the frontier until it is terminal.  fuel bounds the number of
iterations and outOfFuel reports its exhaustion; frontierEmpty models the
IndexError of reading the tail of an empty frontier. -/
def searchLoop (sim : Elem → Elem → ℚ) (limit : Int) (qg cg : Graph)
    (picks : Nat → Nat) : Nat → Nat → List SearchNode → SearchResult
  | 0, _, q => SearchResult.outOfFuel q
  | Nat.succ fuel, i, q =>
    match q.getLast? with
    | none => SearchResult.frontierEmpty
    | some s =>
      if s.nodes.isEmpty && s.edges.isEmpty then SearchResult.found s
      else
        match expand sim limit qg cg (picks i) q with
        | none => SearchResult.err
        | some q2 => searchLoop sim limit qg cg picks fuel (i + 1) q2

/-- Modelled from the spec: arguequery/models/result.py is not among the
sources; a Result pairs a case graph with its similarity score, as built on
retrieval.py line 69. -/
structure Result where
  graph : Graph
  similarity : ℚ
deriving DecidableEq, Repr

/-- A* search of one case graph against the query graph (retrieval.py
lines 42 to 69), with explicit fuel and pick policy; none models
nontermination within the given fuel or a crash. -/
def a_star_search (sim : Elem → Elem → ℚ) (limit : Int) (picks : Nat → Nat)
    (fuel : Nat) (case_graph query_graph : Graph) : Option Result :=
  match searchLoop sim limit query_graph case_graph picks fuel 0
      [initialState query_graph] with
  | SearchResult.found s => some ⟨case_graph, s.mapping.similarity⟩
  | _ => none

/-- Stable insertion for the descending similarity sort: a new result is
placed after every already-placed result of greater or equal similarity, as
the stable Python sort with reverse=True keeps equal keys in input order. -/
def insDesc (x : Result) : List Result → List Result
  | [] => [x]
  | y :: ys => if y.similarity < x.similarity then x :: y :: ys else y :: insDesc x ys

/-- Stable sort of results by similarity descending (retrieval.py line 36). -/
def sortDesc (l : List Result) : List Result :=
  l.foldl (fun acc x => insDesc x acc) []

/-- Batch runner fac (retrieval.py lines 19 to 38): one independent search
per prefilter result, then a stable descending sort by similarity; none
models a failed search. -/
def fac (sim : Elem → Elem → ℚ) (limit : Int) (picks : Nat → Nat) (fuel : Nat)
    (mac_results : List Result) (query_graph : Graph) : Option (List Result) :=
  match optMap (fun r => a_star_search sim limit picks fuel r.graph query_graph)
      mac_results with
  | none => none
  | some rs => some (sortDesc rs)

/-- Heuristic written from the words of the spec, for comparison with h2:
for every remaining unmapped query element the maximum similarity obtainable
against any same-kind candidate element in the case graph, summed and divided
by the query graph's total element count.  The spec leaves the value with an
empty candidate collection undefined; zero stands in for the missing maximum
there, and the comparison theorem assumes every collection is non-empty. -/
def hSpec (sim : Elem → Elem → ℚ) (s : SearchNode) (qg cg : Graph) : ℚ :=
  ((s.nodes.map (fun x => (listMax (nodeSims sim cg x)).getD 0)).sum +
   (s.edges.map (fun x => (listMax (edgeSims sim cg x)).getD 0)).sum) /
    ((qg.nodes.length + qg.edges.length : Nat) : ℚ)

/-- Constant similarity oracle used in concrete instances. -/
def oneSim : Elem → Elem → ℚ :=
  fun _ _ => 1

/-- Constant pick policy used in concrete instances. -/
def constPick : Nat → Nat :=
  fun _ => 0

/-- Query graph with a single atom node. -/
def queryOneAtom : Graph :=
  ⟨[⟨0, NodeKind.atom⟩], []⟩

/-- Case graph with no elements at all. -/
def emptyCase : Graph :=
  ⟨[], []⟩

/-- Case graph with a single atom node. -/
def caseOneAtom : Graph :=
  ⟨[⟨10, NodeKind.atom⟩], []⟩

/-- Query graph with two atom nodes and one edge between them. -/
def queryTwo : Graph :=
  ⟨[⟨0, NodeKind.atom⟩, ⟨1, NodeKind.atom⟩], [⟨2, 0, 1⟩]⟩

/-- Case graph with two atom nodes and one edge between them. -/
def caseTwo : Graph :=
  ⟨[⟨10, NodeKind.atom⟩, ⟨11, NodeKind.atom⟩], [⟨12, 10, 11⟩]⟩

/-- Child state produced by expanding the root state of queryOneAtom against
caseOneAtom: the atom pair mapped, nothing remaining. -/
def childW : SearchNode :=
  ⟨[], [], ⟨1, [(⟨0, NodeKind.atom⟩, ⟨10, NodeKind.atom⟩)], [], 1⟩, 1⟩

/-- Frontier obtained by one expansion of the root state of queryOneAtom
against caseOneAtom: the single child with the atom pair mapped. -/
def qcWitness : List SearchNode :=
  [childW]

/-- Case graph with three atom nodes. -/
def caseThree : Graph :=
  ⟨[⟨10, NodeKind.atom⟩, ⟨11, NodeKind.atom⟩, ⟨12, NodeKind.atom⟩], []⟩

/-- Child state produced by expanding the root state of queryOneAtom with the
case atom node of the given identifier mapped to its single query node. -/
def childOf (cid : Nat) : SearchNode :=
  ⟨[], [], ⟨1, [(⟨0, NodeKind.atom⟩, ⟨cid, NodeKind.atom⟩)], [], 1⟩, 1⟩

/-- Frontier obtained by one expansion of the root state of queryOneAtom
against caseThree: three sibling children of equal priority. -/
def qcThree : List SearchNode :=
  [childOf 10, childOf 11, childOf 12]

/-- State with one remaining edge and no remaining nodes. -/
def stEdgeOnly : SearchNode :=
  ⟨[], [⟨2, 0, 1⟩], Mapping.empty 1, 0⟩

/-- Terminal state: nothing remaining. -/
def stTerminal : SearchNode :=
  ⟨[], [], Mapping.empty 0, 0⟩

/-- State whose only candidate in caseOneAtom is already used as a mapping
value, so no legal candidate exists for its remaining node. -/
def stBlocked : SearchNode :=
  ⟨[⟨1, NodeKind.atom⟩], [],
    ⟨2, [(⟨0, NodeKind.atom⟩, ⟨10, NodeKind.atom⟩)], [], 1 / 2⟩, 3 / 4⟩

/-- Frontier order: states compared by their cached priority f, ascending. -/
def fle (a b : SearchNode) : Prop :=
  a.f ≤ b.f

/-- Result order produced by the batch runner: similarity descending. -/
def sge (a b : Result) : Prop :=
  b.similarity ≤ a.similarity

theorem insort_perm (x : SearchNode) (l : List SearchNode) :
    (insort x l).Perm (x :: l) := by
  induction l with
  | nil => exact List.Perm.refl _
  | cons y ys ih =>
    rw [insort]
    by_cases h : x.f < y.f
    · rw [if_pos h]
    · rw [if_neg h]
      exact (ih.cons y).trans (List.Perm.swap x y ys)

theorem insort_sorted (x : SearchNode) (l : List SearchNode)
    (hl : List.Sorted fle l) : List.Sorted fle (insort x l) := by
  induction l with
  | nil => exact List.sorted_singleton x
  | cons y ys ih =>
    rw [List.sorted_cons] at hl
    obtain ⟨hy, hys⟩ := hl
    rw [insort]
    by_cases h : x.f < y.f
    · rw [if_pos h, List.sorted_cons]
      refine ⟨?_, List.sorted_cons.mpr ⟨hy, hys⟩⟩
      intro b hb
      rcases List.mem_cons.mp hb with hb | hb
      · exact hb ▸ le_of_lt h
      · exact le_trans (le_of_lt h) (hy b hb)
    · rw [if_neg h, List.sorted_cons]
      refine ⟨?_, ih hys⟩
      intro b hb
      have hb2 : b ∈ x :: ys := (insort_perm x ys).mem_iff.mp hb
      rcases List.mem_cons.mp hb2 with hb2 | hb2
      · exact hb2 ▸ not_lt.mp h
      · exact hy b hb2

theorem foldl_insort_perm (cs : List SearchNode) (q0 : List SearchNode) :
    (cs.foldl (fun acc c => insort c acc) q0).Perm (q0 ++ cs) := by
  induction cs generalizing q0 with
  | nil => simp
  | cons c cs ih =>
    have h1 := ih (insort c q0)
    have h2 : (insort c q0 ++ cs).Perm (q0 ++ c :: cs) :=
      (((insort_perm c q0).append_right cs).trans List.perm_middle.symm)
    exact h1.trans h2

theorem foldl_insort_sorted (cs : List SearchNode) (q0 : List SearchNode)
    (h : List.Sorted fle q0) :
    List.Sorted fle (cs.foldl (fun acc c => insort c acc) q0) := by
  induction cs generalizing q0 with
  | nil => exact h
  | cons c cs ih => exact ih (insort c q0) (insort_sorted c q0 h)

theorem drop_keeps_last (q : List SearchNode) (n : Nat) (hn : n < q.length) :
    q.drop n ≠ [] ∧ (q.drop n).getLast? = q.getLast? := by
  constructor
  · intro hnil
    have hlen := congrArg List.length hnil
    rw [List.length_drop] at hlen
    simp only [List.length_nil] at hlen
    omega
  · conv_rhs => rw [← List.take_append_drop n q]
    rw [List.getLast?_append_of_ne_nil]
    intro hnil
    have hlen := congrArg List.length hnil
    rw [List.length_drop] at hlen
    simp only [List.length_nil] at hlen
    omega

theorem truncate_length (limit : Int) (q : List SearchNode) (h : 0 < limit) :
    (truncate limit q).length ≤ limit.toNat := by
  rw [truncate, if_pos h]
  by_cases h2 : 0 ≤ (q.length : Int) - limit
  · rw [if_pos h2, List.length_drop]
    omega
  · rw [if_neg h2, List.length_drop]
    omega

theorem truncate_keeps_last (limit : Int) (q : List SearchNode)
    (hl : 1 ≤ limit) (hq : q ≠ []) :
    truncate limit q ≠ [] ∧ (truncate limit q).getLast? = q.getLast? := by
  have h0 : 0 < limit := hl
  have hpos : 0 < q.length := List.length_pos.mpr hq
  rw [truncate, if_pos h0]
  by_cases h2 : 0 ≤ (q.length : Int) - limit
  · rw [if_pos h2]
    exact drop_keeps_last q _ (by omega)
  · rw [if_neg h2]
    exact drop_keeps_last q _ (by omega)

theorem listMax_spec (l : List ℚ) (hne : l ≠ []) :
    ∃ m, listMax l = some m ∧ m ∈ l ∧ ∀ r ∈ l, r ≤ m := by
  induction l with
  | nil => exact absurd rfl hne
  | cons x xs ih =>
    by_cases hx : xs = []
    · subst hx
      exact ⟨x, rfl, List.mem_singleton.mpr rfl, by
        intro r hr; rw [List.mem_singleton.mp hr]⟩
    · obtain ⟨m, hm, hmem, hmax⟩ := ih hx
      refine ⟨max x m, ?_, ?_, ?_⟩
      · rw [listMax, hm]
      · rcases max_choice x m with h | h
        · rw [h]; exact List.mem_cons_self x xs
        · rw [h]; exact List.mem_cons_of_mem x hmem
      · intro r hr
        rcases List.mem_cons.mp hr with hr | hr
        · exact hr ▸ le_max_left x m
        · exact le_trans (hmax r hr) (le_max_right x m)

theorem optMap_length {α β : Type} (f : α → Option β) (l : List α)
    (ys : List β) (h : optMap f l = some ys) : ys.length = l.length := by
  induction l generalizing ys with
  | nil =>
    rw [optMap] at h
    cases h
    rfl
  | cons x xs ih =>
    rw [optMap] at h
    cases hf : f x with
    | none => rw [hf] at h; exact absurd h (by simp)
    | some y =>
      rw [hf] at h
      cases ho : optMap f xs with
      | none => rw [ho] at h; exact absurd h (by simp)
      | some zs =>
        rw [ho] at h
        cases h
        simp only [List.length_cons]
        rw [ih zs ho]

theorem optMap_mem {α β : Type} (f : α → Option β) (l : List α)
    (ys : List β) (h : optMap f l = some ys) :
    ∀ y ∈ ys, ∃ x ∈ l, f x = some y := by
  induction l generalizing ys with
  | nil =>
    rw [optMap] at h
    cases h
    intro y hy
    exact absurd hy (List.not_mem_nil y)
  | cons x xs ih =>
    rw [optMap] at h
    cases hf : f x with
    | none => rw [hf] at h; exact absurd h (by simp)
    | some y =>
      rw [hf] at h
      cases ho : optMap f xs with
      | none => rw [ho] at h; exact absurd h (by simp)
      | some zs =>
        rw [ho] at h
        cases h
        intro z hz
        rcases List.mem_cons.mp hz with hz | hz
        · exact ⟨x, List.mem_cons_self x xs, hz ▸ hf⟩
        · obtain ⟨w, hw, hfw⟩ := ih zs ho z hz
          exact ⟨w, List.mem_cons_of_mem x hw, hfw⟩

theorem optMap_of_forall_some {α β : Type} (f : α → Option β) (l : List α)
    (d : β) (h : ∀ x ∈ l, f x ≠ none) :
    optMap f l = some (l.map (fun x => (f x).getD d)) := by
  induction l with
  | nil => rfl
  | cons x xs ih =>
    cases hf : f x with
    | none => exact absurd hf (h x (List.mem_cons_self x xs))
    | some y =>
      rw [optMap, hf, ih (fun z hz => h z (List.mem_cons_of_mem x hz))]
      simp [hf]

theorem optMap_get {α β : Type} (f : α → Option β) (l : List α) (ys : List β)
    (h : optMap f l = some ys) :
    ∀ i (hi : i < l.length) (hi2 : i < ys.length),
      f (l.get ⟨i, hi⟩) = some (ys.get ⟨i, hi2⟩) := by
  induction l generalizing ys with
  | nil => intro i hi; exact absurd hi (by simp)
  | cons x xs ih =>
    rw [optMap] at h
    cases hf : f x with
    | none => rw [hf] at h; exact absurd h (by simp)
    | some y =>
      rw [hf] at h
      cases ho : optMap f xs with
      | none => rw [ho] at h; exact absurd h (by simp)
      | some zs =>
        rw [ho] at h
        cases h
        intro i hi hi2
        cases i with
        | zero => simpa using hf
        | succ j => exact ih zs ho j (by simpa using hi) (by simpa using hi2)

theorem remove_f (s : SearchNode) (x : Elem) : (s.remove x).f = s.f := by
  cases x <;> rfl

theorem remove_mapping (s : SearchNode) (x : Elem) :
    (s.remove x).mapping = s.mapping := by
  cases x <;> rfl

theorem sorted_frame_last (q : List SearchNode) (s s2 : SearchNode)
    (hq : List.Sorted fle q) (hlast : q.getLast? = some s) (hf : s2.f = s.f) :
    List.Sorted fle (q.dropLast ++ [s2]) := by
  have hne : q ≠ [] := by intro h; rw [h] at hlast; cases hlast
  have hdecomp : q.dropLast ++ [q.getLast hne] = q :=
    List.dropLast_append_getLast hne
  have hgl : q.getLast hne = s := by
    have h1 := List.getLast?_eq_getLast q hne
    rw [hlast] at h1
    exact (Option.some.inj h1).symm
  rw [← hdecomp] at hq
  unfold List.Sorted at hq ⊢
  rw [List.pairwise_append] at hq ⊢
  obtain ⟨h1, _, h3⟩ := hq
  refine ⟨h1, List.sorted_singleton s2, ?_⟩
  intro a ha b hb
  rw [List.mem_singleton.mp hb]
  have h4 := h3 a ha (q.getLast hne) (List.mem_singleton.mpr rfl)
  rw [hgl] at h4
  unfold fle at h4 ⊢
  rw [hf]
  exact h4

theorem expandCore_eq (sim : Elem → Elem → ℚ) (qg cg : Graph) (pick : Nat)
    (q : List SearchNode) (s : SearchNode) (qobj : Elem) (cands : List Elem)
    (hlast : q.getLast? = some s)
    (hsel : select1 pick s qg cg = some (qobj, cands)) :
    expandCore sim qg cg pick q =
      (if cands.isEmpty then some q
       else if (cands.filter (fun c => s.mapping.is_legal_mapping qobj c)).isEmpty then
         some (q.dropLast ++ [s.remove qobj])
       else
         match optMap (mkChild sim qg cg s qobj)
             (cands.filter (fun c => s.mapping.is_legal_mapping qobj c)) with
         | none => none
         | some children =>
           some (children.foldl (fun acc c => insort c acc) q.dropLast)) := by
  simp only [expandCore, hlast, hsel]

theorem expandCore_sorted (sim : Elem → Elem → ℚ) (qg cg : Graph) (pick : Nat)
    (q qc : List SearchNode) (hq : List.Sorted fle q)
    (h : expandCore sim qg cg pick q = some qc) : List.Sorted fle qc := by
  cases hlast : q.getLast? with
  | none =>
    simp only [expandCore, hlast] at h
    exact Option.noConfusion h
  | some s =>
    cases hsel : select1 pick s qg cg with
    | none =>
      simp only [expandCore, hlast, hsel] at h
      cases h
      exact hq
    | some pr =>
      obtain ⟨qobj, cands⟩ := pr
      rw [expandCore_eq sim qg cg pick q s qobj cands hlast hsel] at h
      by_cases hc : cands.isEmpty = true
      · rw [if_pos hc] at h; cases h; exact hq
      · rw [if_neg hc] at h
        by_cases hleg :
            (cands.filter (fun c => s.mapping.is_legal_mapping qobj c)).isEmpty = true
        · rw [if_pos hleg] at h
          cases h
          exact sorted_frame_last q s (s.remove qobj) hq hlast (remove_f s qobj)
        · rw [if_neg hleg] at h
          cases hm : optMap (mkChild sim qg cg s qobj)
              (cands.filter (fun c => s.mapping.is_legal_mapping qobj c)) with
          | none => rw [hm] at h; cases h
          | some children =>
            rw [hm] at h
            cases h
            exact foldl_insort_sorted children q.dropLast
              (List.Pairwise.sublist (List.dropLast_sublist q) hq)

theorem expandCore_ne_nil (sim : Elem → Elem → ℚ) (qg cg : Graph) (pick : Nat)
    (q qc : List SearchNode) (hq : q ≠ [])
    (h : expandCore sim qg cg pick q = some qc) : qc ≠ [] := by
  cases hlast : q.getLast? with
  | none =>
    simp only [expandCore, hlast] at h
    exact Option.noConfusion h
  | some s =>
    cases hsel : select1 pick s qg cg with
    | none =>
      simp only [expandCore, hlast, hsel] at h
      cases h
      exact hq
    | some pr =>
      obtain ⟨qobj, cands⟩ := pr
      rw [expandCore_eq sim qg cg pick q s qobj cands hlast hsel] at h
      by_cases hc : cands.isEmpty = true
      · rw [if_pos hc] at h; cases h; exact hq
      · rw [if_neg hc] at h
        by_cases hleg :
            (cands.filter (fun c => s.mapping.is_legal_mapping qobj c)).isEmpty = true
        · rw [if_pos hleg] at h
          cases h
          exact List.append_ne_nil_of_right_ne_nil _ (by simp)
        · rw [if_neg hleg] at h
          cases hm : optMap (mkChild sim qg cg s qobj)
              (cands.filter (fun c => s.mapping.is_legal_mapping qobj c)) with
          | none => rw [hm] at h; cases h
          | some children =>
            rw [hm] at h
            cases h
            have hlen := (foldl_insort_perm children q.dropLast).length_eq
            have hchl := optMap_length _ _ _ hm
            have hcne : (cands.filter
                (fun c => s.mapping.is_legal_mapping qobj c)).length ≠ 0 := by
              intro h0
              exact hleg (List.isEmpty_iff.mpr (List.eq_nil_of_length_eq_zero h0))
            intro h0
            rw [h0] at hlen
            simp only [List.length_nil, List.length_append] at hlen
            omega

theorem insDesc_perm (x : Result) (l : List Result) :
    (insDesc x l).Perm (x :: l) := by
  induction l with
  | nil => exact List.Perm.refl _
  | cons y ys ih =>
    rw [insDesc]
    by_cases h : y.similarity < x.similarity
    · rw [if_pos h]
    · rw [if_neg h]
      exact (ih.cons y).trans (List.Perm.swap x y ys)

theorem insDesc_sorted (x : Result) (l : List Result)
    (hl : List.Sorted sge l) : List.Sorted sge (insDesc x l) := by
  induction l with
  | nil => exact List.sorted_singleton x
  | cons y ys ih =>
    rw [List.sorted_cons] at hl
    obtain ⟨hy, hys⟩ := hl
    rw [insDesc]
    by_cases h : y.similarity < x.similarity
    · rw [if_pos h, List.sorted_cons]
      refine ⟨?_, List.sorted_cons.mpr ⟨hy, hys⟩⟩
      intro b hb
      rcases List.mem_cons.mp hb with hb | hb
      · exact hb ▸ le_of_lt h
      · exact le_trans (hy b hb) (le_of_lt h)
    · rw [if_neg h, List.sorted_cons]
      refine ⟨?_, ih hys⟩
      intro b hb
      have hb2 : b ∈ x :: ys := (insDesc_perm x ys).mem_iff.mp hb
      rcases List.mem_cons.mp hb2 with hb2 | hb2
      · exact hb2 ▸ not_lt.mp h
      · exact hy b hb2

theorem foldl_insDesc_perm (l : List Result) (acc : List Result) :
    (l.foldl (fun a x => insDesc x a) acc).Perm (acc ++ l) := by
  induction l generalizing acc with
  | nil => simp
  | cons x xs ih =>
    have h1 := ih (insDesc x acc)
    have h2 : (insDesc x acc ++ xs).Perm (acc ++ x :: xs) :=
      (((insDesc_perm x acc).append_right xs).trans List.perm_middle.symm)
    exact h1.trans h2

theorem foldl_insDesc_sorted (l : List Result) (acc : List Result)
    (h : List.Sorted sge acc) :
    List.Sorted sge (l.foldl (fun a x => insDesc x a) acc) := by
  induction l generalizing acc with
  | nil => exact h
  | cons x xs ih => exact ih (insDesc x acc) (insDesc_sorted x acc h)

theorem sortDesc_perm (l : List Result) : (sortDesc l).Perm l := by
  have := foldl_insDesc_perm l []
  rw [List.nil_append] at this
  exact this

theorem sortDesc_sorted (l : List Result) : List.Sorted sge (sortDesc l) :=
  foldl_insDesc_sorted l [] (List.sorted_nil)

theorem insDesc_filter (x : Result) (l : List Result) (v : ℚ)
    (h : List.Sorted sge l) :
    (insDesc x l).filter (fun r => decide (r.similarity = v)) =
      l.filter (fun r => decide (r.similarity = v)) ++
        (if x.similarity = v then [x] else []) := by
  induction l with
  | nil =>
    by_cases hx : x.similarity = v <;>
      simp [insDesc, List.filter_cons, hx]
  | cons y ys ih =>
    rw [List.sorted_cons] at h
    obtain ⟨hy, hys⟩ := h
    rw [insDesc]
    by_cases hlt : y.similarity < x.similarity
    · rw [if_pos hlt]
      by_cases hx : x.similarity = v
      · have hynv : ¬(y.similarity = v) := by
          rw [← hx]
          exact ne_of_lt hlt
        have hfil : (y :: ys).filter (fun r => decide (r.similarity = v)) = [] := by
          rw [List.filter_eq_nil_iff]
          intro a ha
          rcases List.mem_cons.mp ha with ha | ha
          · subst ha; simpa using hynv
          · have h1 : a.similarity ≤ y.similarity := hy a ha
            have h2 : a.similarity < v := lt_of_le_of_lt h1 (hx ▸ hlt)
            simpa using ne_of_lt h2
        rw [List.filter_cons, hfil]
        simp [hx, hynv]
      · rw [List.filter_cons]
        simp [hx]
    · rw [if_neg hlt]
      rw [List.filter_cons, List.filter_cons, ih hys]
      by_cases hyv : y.similarity = v <;> simp [hyv]

theorem foldl_insDesc_filter (l : List Result) (acc : List Result) (v : ℚ)
    (h : List.Sorted sge acc) :
    (l.foldl (fun a x => insDesc x a) acc).filter
        (fun r => decide (r.similarity = v)) =
      acc.filter (fun r => decide (r.similarity = v)) ++
        l.filter (fun r => decide (r.similarity = v)) := by
  induction l generalizing acc with
  | nil => simp
  | cons x xs ih =>
    have h1 := ih (insDesc x acc) (insDesc_sorted x acc h)
    rw [List.foldl_cons, h1, insDesc_filter x acc v h, List.filter_cons]
    by_cases hx : x.similarity = v <;> simp [hx]

theorem sortDesc_filter (l : List Result) (v : ℚ) :
    (sortDesc l).filter (fun r => decide (r.similarity = v)) =
      l.filter (fun r => decide (r.similarity = v)) := by
  have := foldl_insDesc_filter l [] v List.sorted_nil
  simpa [sortDesc] using this

theorem listMax_ne_none (x : ℚ) (xs : List ℚ) : listMax (x :: xs) ≠ none := by
  rw [listMax]
  cases listMax xs <;> simp

theorem h2_f_irrel (sim : Elem → Elem → ℚ) (s : SearchNode) (v : ℚ)
    (qg cg : Graph) : h2 sim { s with f := v } qg cg = h2 sim s qg cg :=
  rfl

theorem g_f_irrel (s : SearchNode) (v : ℚ) (qg : Graph) :
    g { s with f := v } qg = g s qg :=
  rfl

theorem mkChild_spec (sim : Elem → Elem → ℚ) (qg cg : Graph) (s : SearchNode)
    (qobj cobj : Elem) (child : SearchNode)
    (h : mkChild sim qg cg s qobj cobj = some child) :
    child.mapping = s.mapping.map sim qobj cobj ∧
    (∀ n, qobj = Elem.node n →
      child.nodes = s.nodes.erase n ∧ child.edges = s.edges) ∧
    (∀ e, qobj = Elem.edge e →
      child.edges = s.edges.erase e ∧ child.nodes = s.nodes) ∧
    ∃ hv, h2 sim child qg cg = some hv ∧ child.f = g child qg + hv := by
  cases qobj with
  | node n =>
    simp only [mkChild, SearchNode.remove] at h
    cases hh : h2 sim
        ⟨s.nodes.erase n, s.edges, s.mapping.map sim (Elem.node n) cobj, 0⟩
        qg cg with
    | none => rw [hh] at h; exact Option.noConfusion h
    | some hv =>
      rw [hh] at h
      cases h
      refine ⟨rfl, fun m hm => by cases hm; exact ⟨rfl, rfl⟩,
        fun e he => Elem.noConfusion he, hv, ?_, rfl⟩
      exact hh
  | edge e =>
    simp only [mkChild, SearchNode.remove] at h
    cases hh : h2 sim
        ⟨s.nodes, s.edges.erase e, s.mapping.map sim (Elem.edge e) cobj, 0⟩
        qg cg with
    | none => rw [hh] at h; exact Option.noConfusion h
    | some hv =>
      rw [hh] at h
      cases h
      refine ⟨rfl, fun m hm => Elem.noConfusion hm,
        fun e2 he => by cases he; exact ⟨rfl, rfl⟩, hv, ?_, rfl⟩
      exact hh

theorem stuck_loop : ∀ fuel i,
    searchLoop oneSim 0 queryOneAtom emptyCase constPick fuel i
        [initialState queryOneAtom] =
      SearchResult.outOfFuel [initialState queryOneAtom] := by
  intro fuel
  induction fuel with
  | zero => intro _; rfl
  | succ n ih =>
    intro i
    have hstep : searchLoop oneSim 0 queryOneAtom emptyCase constPick (n + 1) i
          [initialState queryOneAtom] =
        searchLoop oneSim 0 queryOneAtom emptyCase constPick n (i + 1)
          [initialState queryOneAtom] := rfl
    rw [hstep]
    exact ih (i + 1)

theorem expandCore_concrete :
    expandCore oneSim queryOneAtom caseOneAtom 0 [initialState queryOneAtom] =
      some qcWitness := by
  norm_num [expandCore, initialState, queryOneAtom, caseOneAtom, oneSim,
    qcWitness, childW, select1, nodeCandidates, Graph.atomNodes,
    Graph.schemeNodes, Mapping.empty, Mapping.is_legal_mapping, Mapping.map,
    mkChild, optMap, h2, nodeSims, edgeSims, listMax, SearchNode.remove,
    insort, g, Mapping.lookupNode]

/-- C1: the spec asserts that every expansion either maps or abandons the
picked element, strictly shrinking the remaining sets along every branch,
and that the search loop therefore always terminates.  The code violates
this: when the case graph has no element of the picked kind, the candidate
collection is empty and hence falsy, the guard `if query_obj and iterator`
skips both the mapping and the abandonment branch, and the frontier is
returned unchanged.  At the failing input (query graph with one atom node,
case graph with no elements) the expansion step is the identity on the
frontier, the selected state keeps its remaining node, and the search loop
exhausts any amount of fuel without reaching a terminal state. -/
theorem c1_expansion_leaves_state_unchanged :
    expand oneSim 0 queryOneAtom emptyCase 0 [initialState queryOneAtom] =
      some [initialState queryOneAtom] ∧
    (initialState queryOneAtom).nodes ≠ [] ∧
    ∀ fuel i,
      searchLoop oneSim 0 queryOneAtom emptyCase constPick fuel i
          [initialState queryOneAtom] =
        SearchResult.outOfFuel [initialState queryOneAtom] :=
  ⟨by decide, by decide, stuck_loop⟩

/-- C6: the spec promises that query elements of a kind with no case
candidates are abandoned with zero similarity contribution and that the
search completes normally.  The code instead skips the whole expansion body,
because an empty candidate collection is falsy in `if query_obj and
iterator`: at the failing input the expansion returns the frontier unchanged
with the atom node still unmapped (never abandoned), and a_star_search
returns no result for any amount of fuel instead of completing. -/
theorem c6_empty_kind_not_abandoned :
    expandCore oneSim queryOneAtom emptyCase 0 [initialState queryOneAtom] =
      some [initialState queryOneAtom] ∧
    ∀ fuel,
      a_star_search oneSim 0 constPick fuel emptyCase queryOneAtom = none := by
  refine ⟨by decide, ?_⟩
  intro fuel
  rw [a_star_search, stuck_loop fuel 0]

/-- C9: determinism: with the same pick (tie-break) policy and a similarity
oracle giving the same answers, two runs of the alignment search on
identical inputs return identical results. -/
theorem c9_deterministic (sim1 sim2 : Elem → Elem → ℚ)
    (picks1 picks2 : Nat → Nat) (limit : Int) (fuel : Nat) (cg qg : Graph)
    (hsim : ∀ a b, sim1 a b = sim2 a b) (hpick : ∀ i, picks1 i = picks2 i) :
    a_star_search sim1 limit picks1 fuel cg qg =
      a_star_search sim2 limit picks2 fuel cg qg := by
  have h1 : sim1 = sim2 := funext fun a => funext fun b => hsim a b
  have hp : picks1 = picks2 := funext hpick
  rw [h1, hp]

theorem c9_deterministic_witness :
    a_star_search oneSim 0 constPick 10 caseOneAtom queryOneAtom =
      a_star_search oneSim 0 constPick 10 caseOneAtom queryOneAtom :=
  c9_deterministic oneSim oneSim constPick constPick 0 10 caseOneAtom
    queryOneAtom (fun _ _ => rfl) (fun _ => rfl)

/-- C3: the element picked for expansion is one of the state's remaining
query nodes whenever any remain, and a remaining query edge only when the
node set is empty; the candidate collection is exactly the same-kind
elements of the case graph: its atom nodes for an atom node, its scheme
nodes for a scheme node, all of its edges for an edge. -/
theorem c3_pick_kind_priority (pick : Nat) (s : SearchNode) (qg cg : Graph) :
    (s.nodes ≠ [] →
      ∃ n, n ∈ s.nodes ∧
        select1 pick s qg cg =
          some (Elem.node n,
            ((if n.kind = NodeKind.atom then cg.atomNodes
              else cg.schemeNodes).map Elem.node))) ∧
    (s.nodes = [] → s.edges ≠ [] →
      ∃ e, e ∈ s.edges ∧
        select1 pick s qg cg = some (Elem.edge e, cg.edges.map Elem.edge)) ∧
    (s.nodes = [] → s.edges = [] → select1 pick s qg cg = none) := by
  refine ⟨?_, ?_, ?_⟩
  · intro hn
    refine ⟨s.nodes.get ⟨pick % s.nodes.length,
        Nat.mod_lt _ (List.length_pos.mpr hn)⟩, List.get_mem _ _ _, ?_⟩
    rw [select1, dif_pos hn]
    rfl
  · intro hn he
    refine ⟨s.edges.get ⟨pick % s.edges.length,
        Nat.mod_lt _ (List.length_pos.mpr he)⟩, List.get_mem _ _ _, ?_⟩
    rw [select1, dif_neg (fun hne => hne hn), dif_pos he]
  · intro hn he
    rw [select1, dif_neg (fun hne => hne hn), dif_neg (fun hne => hne he)]

theorem c3_pick_kind_priority_witness :
    (∃ n, n ∈ (initialState queryOneAtom).nodes ∧
      select1 0 (initialState queryOneAtom) queryOneAtom caseOneAtom =
        some (Elem.node n,
          ((if n.kind = NodeKind.atom then caseOneAtom.atomNodes
            else caseOneAtom.schemeNodes).map Elem.node))) ∧
    (∃ e, e ∈ stEdgeOnly.edges ∧
      select1 0 stEdgeOnly queryOneAtom caseOneAtom =
        some (Elem.edge e, caseOneAtom.edges.map Elem.edge)) ∧
    select1 0 stTerminal queryOneAtom caseOneAtom = none :=
  ⟨(c3_pick_kind_priority 0 (initialState queryOneAtom) queryOneAtom
      caseOneAtom).1 (by decide),
   (c3_pick_kind_priority 0 stEdgeOnly queryOneAtom caseOneAtom).2.1
      (by decide) (by decide),
   (c3_pick_kind_priority 0 stTerminal queryOneAtom caseOneAtom).2.2
      (by decide) (by decide)⟩

/-- C4: the claim restates spec step 6: with a positive limit, eviction
removes the lowest-priority entries and only until the frontier fits, so a
frontier already within the bound is retained whole.  The code's slice
q[len(q) - limit:] (retrieval.py line 103) violates this: a negative Python
slice start wraps (it is increased by the list length), so whenever
limit / 2 < len(q) < limit only limit - len(q) states survive, evicting
states although the frontier fits.  At the failing input, expanding a
one-atom query against three atom candidates yields a frontier of three
equal-priority states, which fits a limit of four, yet the expansion step
returns a single state: two states within the bound are evicted. -/
theorem c4_truncation_wraps :
    expandCore oneSim queryOneAtom caseThree 0 [initialState queryOneAtom] =
      some qcThree ∧
    qcThree.length = 3 ∧
    qcThree.length ≤ (4 : Int).toNat ∧
    expand oneSim 4 queryOneAtom caseThree 0 [initialState queryOneAtom] =
      some [childOf 12] ∧
    (truncate 4 qcThree).length = 1 := by
  have hcore : expandCore oneSim queryOneAtom caseThree 0
      [initialState queryOneAtom] = some qcThree := by
    norm_num [expandCore, initialState, queryOneAtom, caseThree, oneSim,
      qcThree, childOf, select1, nodeCandidates, Graph.atomNodes,
      Graph.schemeNodes, Mapping.empty, Mapping.is_legal_mapping, Mapping.map,
      mkChild, optMap, h2, nodeSims, edgeSims, listMax, SearchNode.remove,
      insort, g, Mapping.lookupNode]
  refine ⟨hcore, rfl, by decide, ?_, rfl⟩
  rw [expand, hcore]
  rfl

/-- C5: with a frontier limit of at least one, truncation keeps the frontier
non-empty and preserves its highest-priority (last) state, and the search
loop can never fail with an exhausted (empty) frontier. -/
theorem c5_no_frontier_exhaustion (sim : Elem → Elem → ℚ) (limit : Int)
    (qg cg : Graph) (picks : Nat → Nat) (hlim : 1 ≤ limit) :
    (∀ pick q qc, q ≠ [] → expandCore sim qg cg pick q = some qc →
      truncate limit qc ≠ [] ∧ (truncate limit qc).getLast? = qc.getLast?) ∧
    (∀ fuel i q, q ≠ [] →
      searchLoop sim limit qg cg picks fuel i q ≠ SearchResult.frontierEmpty) := by
  have hstep : ∀ pick q qc, q ≠ [] → expandCore sim qg cg pick q = some qc →
      truncate limit qc ≠ [] ∧ (truncate limit qc).getLast? = qc.getLast? := by
    intro pick q qc hq hcore
    exact truncate_keeps_last limit qc hlim
      (expandCore_ne_nil sim qg cg pick q qc hq hcore)
  refine ⟨hstep, ?_⟩
  intro fuel
  induction fuel with
  | zero =>
    intro i q hq
    rw [searchLoop]
    exact fun hcon => SearchResult.noConfusion hcon
  | succ n ih =>
    intro i q hq
    rw [searchLoop]
    cases hlast : q.getLast? with
    | none =>
      have hs := List.getLast?_isSome.mpr hq
      rw [hlast] at hs
      exact absurd hs (by simp)
    | some s =>
      simp only
      by_cases hterm : (s.nodes.isEmpty && s.edges.isEmpty) = true
      · rw [if_pos hterm]
        exact fun hcon => SearchResult.noConfusion hcon
      · rw [if_neg hterm]
        cases hex : expand sim limit qg cg (picks i) q with
        | none => exact fun hcon => SearchResult.noConfusion hcon
        | some q2 =>
          have hq2 : q2 ≠ [] := by
            rw [expand] at hex
            cases hec : expandCore sim qg cg (picks i) q with
            | none => rw [hec] at hex; exact Option.noConfusion hex
            | some qc =>
              rw [hec, Option.map_some'] at hex
              cases hex
              exact (hstep (picks i) q qc hq hec).1
          exact ih (i + 1) q2 hq2

theorem c5_no_frontier_exhaustion_witness :
    (truncate 1 qcWitness ≠ [] ∧
      (truncate 1 qcWitness).getLast? = qcWitness.getLast?) ∧
    searchLoop oneSim 1 queryOneAtom caseOneAtom constPick 3 0
        [initialState queryOneAtom] ≠ SearchResult.frontierEmpty :=
  ⟨(c5_no_frontier_exhaustion oneSim 1 queryOneAtom caseOneAtom constPick
      (by decide)).1 0 [initialState queryOneAtom] qcWitness (by decide)
      expandCore_concrete,
   (c5_no_frontier_exhaustion oneSim 1 queryOneAtom caseOneAtom constPick
      (by decide)).2 3 0 [initialState queryOneAtom] (by decide)⟩

/-- C10: in the abandonment branch (candidates exist but none is legal) the
only mutation is the removal of the picked element from the expanded state's
remaining set: its mapping and its cached priority f are unchanged, every
other frontier state is passed through untouched, and only the final size
truncation is applied on top. -/
theorem c10_abandon_frame (sim : Elem → Elem → ℚ) (limit : Int)
    (qg cg : Graph) (pick : Nat) (q : List SearchNode) (s : SearchNode)
    (qobj : Elem) (cands : List Elem)
    (hlast : q.getLast? = some s)
    (hsel : select1 pick s qg cg = some (qobj, cands))
    (hcands : cands ≠ [])
    (hlegal : cands.filter (fun c => s.mapping.is_legal_mapping qobj c) = []) :
    ∃ s2, expand sim limit qg cg pick q =
        some (truncate limit (q.dropLast ++ [s2])) ∧
      s2.mapping = s.mapping ∧ s2.f = s.f ∧
      (∀ n, qobj = Elem.node n →
        s2.nodes = s.nodes.erase n ∧ s2.edges = s.edges) ∧
      (∀ e, qobj = Elem.edge e →
        s2.edges = s.edges.erase e ∧ s2.nodes = s.nodes) := by
  refine ⟨s.remove qobj, ?_, remove_mapping s qobj, remove_f s qobj, ?_, ?_⟩
  · rw [expand, expandCore_eq sim qg cg pick q s qobj cands hlast hsel,
      if_neg (fun h => hcands (List.isEmpty_iff.mp h)),
      if_pos (List.isEmpty_iff.mpr hlegal), Option.map_some']
  · intro n hn
    subst hn
    exact ⟨rfl, rfl⟩
  · intro e he
    subst he
    exact ⟨rfl, rfl⟩

theorem c10_abandon_frame_witness :
    ∃ s2, expand oneSim 1 queryOneAtom caseOneAtom 0 [stBlocked] =
        some (truncate 1 ([stBlocked].dropLast ++ [s2])) ∧
      s2.mapping = stBlocked.mapping ∧ s2.f = stBlocked.f ∧
      (∀ n, Elem.node (⟨1, NodeKind.atom⟩ : Node) = Elem.node n →
        s2.nodes = stBlocked.nodes.erase n ∧ s2.edges = stBlocked.edges) ∧
      (∀ e, Elem.node (⟨1, NodeKind.atom⟩ : Node) = Elem.edge e →
        s2.edges = stBlocked.edges.erase e ∧ s2.nodes = stBlocked.nodes) :=
  c10_abandon_frame oneSim 1 queryOneAtom caseOneAtom 0 [stBlocked] stBlocked
    (Elem.node ⟨1, NodeKind.atom⟩) [Elem.node ⟨10, NodeKind.atom⟩]
    rfl rfl (by decide) (by decide)

/-- C7: whenever every remaining element has at least one same-kind case
candidate (otherwise the source raises), the heuristic h2 equals the sum,
over the remaining unmapped query elements, of the maximum oracle similarity
against the same-kind case candidates, divided by the query graph's total
element count, where each summand really is the maximum of its candidate
similarities; and every child state built during expansion gets priority
f = g + h2 of itself. -/
theorem c7_heuristic (sim : Elem → Elem → ℚ) (s : SearchNode) (qg cg : Graph)
    (hn : ∀ x ∈ s.nodes, nodeSims sim cg x ≠ [])
    (he : ∀ x ∈ s.edges, edgeSims sim cg x ≠ []) :
    h2 sim s qg cg = some (hSpec sim s qg cg) ∧
    (∀ x ∈ s.nodes, ∃ mx, listMax (nodeSims sim cg x) = some mx ∧
      mx ∈ nodeSims sim cg x ∧ ∀ r ∈ nodeSims sim cg x, r ≤ mx) ∧
    (∀ x ∈ s.edges, ∃ mx, listMax (edgeSims sim cg x) = some mx ∧
      mx ∈ edgeSims sim cg x ∧ ∀ r ∈ edgeSims sim cg x, r ≤ mx) ∧
    (∀ qobj cobj child, mkChild sim qg cg s qobj cobj = some child →
      ∃ hv, h2 sim child qg cg = some hv ∧ child.f = g child qg + hv) := by
  have hn2 : ∀ x ∈ s.nodes, (fun x => listMax (nodeSims sim cg x)) x ≠ none := by
    intro x hx
    show listMax (nodeSims sim cg x) ≠ none
    cases hcx : nodeSims sim cg x with
    | nil => exact absurd hcx (hn x hx)
    | cons a as => exact listMax_ne_none a as
  have he2 : ∀ x ∈ s.edges, (fun x => listMax (edgeSims sim cg x)) x ≠ none := by
    intro x hx
    show listMax (edgeSims sim cg x) ≠ none
    cases hcx : edgeSims sim cg x with
    | nil => exact absurd hcx (he x hx)
    | cons a as => exact listMax_ne_none a as
  have hmn := optMap_of_forall_some (fun x => listMax (nodeSims sim cg x))
    s.nodes (0 : ℚ) hn2
  have hme := optMap_of_forall_some (fun x => listMax (edgeSims sim cg x))
    s.edges (0 : ℚ) he2
  refine ⟨?_, ?_, ?_, ?_⟩
  · simp only [h2, hmn, hme]
    rfl
  · intro x hx
    exact listMax_spec (nodeSims sim cg x) (hn x hx)
  · intro x hx
    exact listMax_spec (edgeSims sim cg x) (he x hx)
  · intro qobj cobj child hmk
    exact (mkChild_spec sim qg cg s qobj cobj child hmk).2.2.2

theorem c7_heuristic_witness :
    h2 oneSim (initialState queryTwo) queryTwo caseTwo =
      some (hSpec oneSim (initialState queryTwo) queryTwo caseTwo) ∧
    (∀ x ∈ (initialState queryTwo).nodes,
      ∃ mx, listMax (nodeSims oneSim caseTwo x) = some mx ∧
        mx ∈ nodeSims oneSim caseTwo x ∧
        ∀ r ∈ nodeSims oneSim caseTwo x, r ≤ mx) ∧
    (∀ x ∈ (initialState queryTwo).edges,
      ∃ mx, listMax (edgeSims oneSim caseTwo x) = some mx ∧
        mx ∈ edgeSims oneSim caseTwo x ∧
        ∀ r ∈ edgeSims oneSim caseTwo x, r ≤ mx) ∧
    (∀ qobj cobj child,
      mkChild oneSim queryTwo caseTwo (initialState queryTwo) qobj cobj =
        some child →
      ∃ hv, h2 oneSim child queryTwo caseTwo = some hv ∧
        child.f = g child queryTwo + hv) :=
  c7_heuristic oneSim (initialState queryTwo) queryTwo caseTwo
    (by decide) (by decide)

theorem map_adds_pair (sim : Elem → Elem → ℚ) (m : Mapping) (qobj cobj : Elem)
    (h : m.is_legal_mapping qobj cobj = true) :
    (∀ n cn, qobj = Elem.node n → cobj = Elem.node cn →
      (m.map sim qobj cobj).nodePairs = (n, cn) :: m.nodePairs ∧
      (m.map sim qobj cobj).similarity =
        m.similarity + sim qobj cobj / (m.total : ℚ)) ∧
    (∀ e ce, qobj = Elem.edge e → cobj = Elem.edge ce →
      (m.map sim qobj cobj).edgePairs = (e, ce) :: m.edgePairs ∧
      (m.map sim qobj cobj).similarity =
        m.similarity + sim qobj cobj / (m.total : ℚ)) := by
  constructor
  · intro n cn hq hc
    subst hq
    subst hc
    rw [Mapping.map, if_pos h]
    exact ⟨rfl, rfl⟩
  · intro e ce hq hc
    subst hq
    subst hc
    rw [Mapping.map, if_pos h]
    exact ⟨rfl, rfl⟩

/-- C2: in one expansion step with a non-empty candidate collection, every
candidate that passes the legality check yields a child state whose mapping
additionally maps the picked pair (and adds its normalized similarity), with
the picked element removed from the child's remaining sets and the priority
recomputed as f = g + h2 before insertion; if at least one legal candidate
exists the expanded state is removed and the result is, up to the ordered
insertions, the frontier without it plus one child per legal candidate; if
no legal candidate exists, the picked element is removed from the expanded
state without mapping it and that state stays in the frontier. -/
theorem c2_expansion_children (sim : Elem → Elem → ℚ) (qg cg : Graph)
    (pick : Nat) (q : List SearchNode) (s : SearchNode) (qobj : Elem)
    (cands : List Elem) (qc : List SearchNode)
    (hlast : q.getLast? = some s)
    (hsel : select1 pick s qg cg = some (qobj, cands))
    (hcands : cands ≠ [])
    (hcore : expandCore sim qg cg pick q = some qc) :
    (∀ c cchild,
      c ∈ cands.filter (fun c => s.mapping.is_legal_mapping qobj c) →
      mkChild sim qg cg s qobj c = some cchild →
      cchild.mapping = s.mapping.map sim qobj c ∧
      (∀ n cn, qobj = Elem.node n → c = Elem.node cn →
        cchild.mapping.nodePairs = (n, cn) :: s.mapping.nodePairs ∧
        cchild.mapping.similarity =
          s.mapping.similarity + sim qobj c / (s.mapping.total : ℚ)) ∧
      (∀ e ce, qobj = Elem.edge e → c = Elem.edge ce →
        cchild.mapping.edgePairs = (e, ce) :: s.mapping.edgePairs ∧
        cchild.mapping.similarity =
          s.mapping.similarity + sim qobj c / (s.mapping.total : ℚ)) ∧
      (∀ n, qobj = Elem.node n →
        cchild.nodes = s.nodes.erase n ∧ cchild.edges = s.edges) ∧
      (∀ e, qobj = Elem.edge e →
        cchild.edges = s.edges.erase e ∧ cchild.nodes = s.nodes) ∧
      ∃ hv, h2 sim cchild qg cg = some hv ∧ cchild.f = g cchild qg + hv) ∧
    (cands.filter (fun c => s.mapping.is_legal_mapping qobj c) ≠ [] →
      ∃ children,
        optMap (mkChild sim qg cg s qobj)
            (cands.filter (fun c => s.mapping.is_legal_mapping qobj c)) =
          some children ∧
        children.length =
          (cands.filter (fun c => s.mapping.is_legal_mapping qobj c)).length ∧
        qc.Perm (q.dropLast ++ children)) ∧
    (cands.filter (fun c => s.mapping.is_legal_mapping qobj c) = [] →
      qc = q.dropLast ++ [s.remove qobj]) := by
  refine ⟨?_, ?_, ?_⟩
  · intro c cchild hc hmk
    have hs := mkChild_spec sim qg cg s qobj c cchild hmk
    have hleg : s.mapping.is_legal_mapping qobj c = true :=
      (List.mem_filter.mp hc).2
    have hadd := map_adds_pair sim s.mapping qobj c hleg
    refine ⟨hs.1, ?_, ?_, hs.2.1, hs.2.2.1, hs.2.2.2⟩
    · intro n cn hq2 hc2
      rw [hs.1]
      exact hadd.1 n cn hq2 hc2
    · intro e ce hq2 hc2
      rw [hs.1]
      exact hadd.2 e ce hq2 hc2
  · intro hleg
    rw [expandCore_eq sim qg cg pick q s qobj cands hlast hsel,
      if_neg (fun h => hcands (List.isEmpty_iff.mp h)),
      if_neg (fun h => hleg (List.isEmpty_iff.mp h))] at hcore
    cases hm : optMap (mkChild sim qg cg s qobj)
        (cands.filter (fun c => s.mapping.is_legal_mapping qobj c)) with
    | none => rw [hm] at hcore; exact Option.noConfusion hcore
    | some children =>
      rw [hm] at hcore
      cases hcore
      exact ⟨children, rfl, optMap_length _ _ _ hm,
        foldl_insort_perm children q.dropLast⟩
  · intro hleg
    rw [expandCore_eq sim qg cg pick q s qobj cands hlast hsel,
      if_neg (fun h => hcands (List.isEmpty_iff.mp h)),
      if_pos (List.isEmpty_iff.mpr hleg)] at hcore
    exact (Option.some.inj hcore).symm

theorem c2_expansion_children_witness :
    ∃ children,
      optMap (mkChild oneSim queryOneAtom caseOneAtom
          (initialState queryOneAtom) (Elem.node ⟨0, NodeKind.atom⟩))
          (([Elem.node ⟨10, NodeKind.atom⟩] : List Elem).filter
            (fun c => (initialState queryOneAtom).mapping.is_legal_mapping
              (Elem.node ⟨0, NodeKind.atom⟩) c)) =
        some children ∧
      children.length =
        (([Elem.node ⟨10, NodeKind.atom⟩] : List Elem).filter
          (fun c => (initialState queryOneAtom).mapping.is_legal_mapping
            (Elem.node ⟨0, NodeKind.atom⟩) c)).length ∧
      qcWitness.Perm ([initialState queryOneAtom].dropLast ++ children) :=
  (c2_expansion_children oneSim queryOneAtom caseOneAtom 0
    [initialState queryOneAtom] (initialState queryOneAtom)
    (Elem.node ⟨0, NodeKind.atom⟩) [Elem.node ⟨10, NodeKind.atom⟩] qcWitness
    rfl rfl (by decide) expandCore_concrete).2.1 (by decide)

theorem searchLoop_step_found (sim : Elem → Elem → ℚ) (limit : Int)
    (qg cg : Graph) (picks : Nat → Nat) (fuel i : Nat) (q : List SearchNode)
    (s : SearchNode) (hlast : q.getLast? = some s)
    (hterm : (s.nodes.isEmpty && s.edges.isEmpty) = true) :
    searchLoop sim limit qg cg picks (fuel + 1) i q = SearchResult.found s := by
  rw [searchLoop]
  simp only [hlast, if_pos hterm]

theorem searchLoop_step_expand (sim : Elem → Elem → ℚ) (limit : Int)
    (qg cg : Graph) (picks : Nat → Nat) (fuel i : Nat) (q : List SearchNode)
    (s : SearchNode) (q2 : List SearchNode) (hlast : q.getLast? = some s)
    (hterm : ¬(s.nodes.isEmpty && s.edges.isEmpty) = true)
    (hex : expand sim limit qg cg (picks i) q = some q2) :
    searchLoop sim limit qg cg picks (fuel + 1) i q =
      searchLoop sim limit qg cg picks fuel (i + 1) q2 := by
  rw [searchLoop]
  simp only [hlast, if_neg hterm, hex]

theorem expand_concrete :
    expand oneSim 0 queryOneAtom caseOneAtom (constPick 0)
      [initialState queryOneAtom] = some qcWitness := by
  show (expandCore oneSim queryOneAtom caseOneAtom 0
      [initialState queryOneAtom]).map (truncate 0) = some qcWitness
  rw [expandCore_concrete]
  rfl

theorem loop_concrete :
    searchLoop oneSim 0 queryOneAtom caseOneAtom constPick 3 0
      [initialState queryOneAtom] = SearchResult.found childW := by
  have h1 := searchLoop_step_expand oneSim 0 queryOneAtom caseOneAtom
    constPick 2 0 [initialState queryOneAtom] (initialState queryOneAtom)
    qcWitness rfl (by decide) expand_concrete
  have hfound := searchLoop_step_found oneSim 0 queryOneAtom caseOneAtom
    constPick 1 1 qcWitness childW rfl (by decide)
  exact h1.trans hfound

theorem a_star_concrete :
    a_star_search oneSim 0 constPick 3 caseOneAtom queryOneAtom =
      some ⟨caseOneAtom, 1⟩ := by
  rw [a_star_search, loop_concrete]
  rfl

theorem run_concrete :
    optMap (fun r => a_star_search oneSim 0 constPick 3 r.graph queryOneAtom)
      ([⟨caseOneAtom, 0⟩] : List Result) = some [⟨caseOneAtom, 1⟩] := by
  simp only [optMap, a_star_concrete]

theorem fac_concrete :
    fac oneSim 0 constPick 3 ([⟨caseOneAtom, 0⟩] : List Result) queryOneAtom =
      some [⟨caseOneAtom, 1⟩] := by
  rw [fac, run_concrete]
  rfl

/-- C8: the batch runner performs one independent alignment search per input
candidate (the result list pairs each input, in order, with its search
outcome) and returns those results sorted by similarity descending; the sort
is stable, so results of equal similarity keep their input order, and the
output is a permutation of the per-candidate results, hence exactly one
result per candidate. -/
theorem c8_batch_runner (sim : Elem → Elem → ℚ) (limit : Int)
    (picks : Nat → Nat) (fuel : Nat) (mac_results : List Result) (qg : Graph)
    (rs out : List Result)
    (hrun : optMap (fun r => a_star_search sim limit picks fuel r.graph qg)
        mac_results = some rs)
    (hfac : fac sim limit picks fuel mac_results qg = some out) :
    rs.length = mac_results.length ∧
    (∀ i (hi : i < mac_results.length) (hi2 : i < rs.length),
      a_star_search sim limit picks fuel (mac_results.get ⟨i, hi⟩).graph qg =
        some (rs.get ⟨i, hi2⟩)) ∧
    out.Perm rs ∧
    List.Sorted sge out ∧
    (∀ v, out.filter (fun r => decide (r.similarity = v)) =
      rs.filter (fun r => decide (r.similarity = v))) := by
  have hout : out = sortDesc rs := by
    rw [fac, hrun] at hfac
    exact (Option.some.inj hfac).symm
  subst hout
  exact ⟨optMap_length _ _ _ hrun, optMap_get _ _ _ hrun, sortDesc_perm rs,
    sortDesc_sorted rs, fun v => sortDesc_filter rs v⟩

theorem c8_batch_runner_witness :
    ([⟨caseOneAtom, 1⟩] : List Result).length =
      ([⟨caseOneAtom, 0⟩] : List Result).length ∧
    (∀ i (hi : i < ([⟨caseOneAtom, 0⟩] : List Result).length)
        (hi2 : i < ([⟨caseOneAtom, 1⟩] : List Result).length),
      a_star_search oneSim 0 constPick 3
          (([⟨caseOneAtom, 0⟩] : List Result).get ⟨i, hi⟩).graph queryOneAtom =
        some (([⟨caseOneAtom, 1⟩] : List Result).get ⟨i, hi2⟩)) ∧
    ([⟨caseOneAtom, 1⟩] : List Result).Perm [⟨caseOneAtom, 1⟩] ∧
    List.Sorted sge ([⟨caseOneAtom, 1⟩] : List Result) ∧
    (∀ v, ([⟨caseOneAtom, 1⟩] : List Result).filter
        (fun r => decide (r.similarity = v)) =
      ([⟨caseOneAtom, 1⟩] : List Result).filter
        (fun r => decide (r.similarity = v))) :=
  c8_batch_runner oneSim 0 constPick 3 [⟨caseOneAtom, 0⟩] queryOneAtom
    [⟨caseOneAtom, 1⟩] [⟨caseOneAtom, 1⟩] run_concrete fac_concrete

end Arguequery
